import Mathlib

/-!
# Verification of the TypeScript traveling-salesman implementations

This file embeds the TypeScript sources of the `coding_comparison` repository
(`src/traveling_salesman.ts`) into Lean and proves the specified properties.

The source file contains two implementations:
* a first, array-based one: a recursive `getPermutations` plus a
  `travelingSalesman` that materialises routes and reduces with
  `(min, curr) => curr.distance < min.distance ? curr : min`;
* a second, generator-based one built on the `itertools-ts` library:
  `total_distance`, `startAndEnd`, `generateRoutes`, `calculateDistances`,
  the pipeline `travelingSalesman`, `cachedFn`, and the fused
  `handRolledTravelingSalesman`.

JavaScript arrays are modelled as `List`.  JavaScript numbers are modelled by
exact arithmetic: the distance codomain is any `LinearOrderedAddCommMonoid R`
(the spec only requires addition and total order of distances; `ℚ` and `ℤ`
are instances, and concrete runs below use `ℤ`).  The sentinel `Infinity`
that seeds the fused variant's `minDistance` is `none : Option R` (every
value is `< Infinity`), and a caller-supplied distance function that may
throw is a function into `Except ε R`.
-/

namespace TSP

variable {α : Type} {R : Type} [LinearOrderedAddCommMonoid R]

/-- One step of the selection loop in `getPermutations`
(`const current = arr[i]; const remaining = [...arr.slice(0, i), ...arr.slice(i + 1)]`):
every way to pick one element of `arr`, in index order, paired with the
remaining elements in their original order. -/
def selections {α : Type} : List α → List (α × List α)
  | [] => []
  | x :: xs => (x, xs) :: (selections xs).map (fun p => (p.1, x :: p.2))

/-- `getPermutations` from the first implementation in
`src/traveling_salesman.ts`: `if (size === 0) return [[]]`, otherwise for each
index `i` take `arr[i]` as the pivot, recurse on the remaining elements with
`size - 1`, and prepend the pivot to each sub-permutation. -/
def getPermutations {α : Type} : List α → Nat → List (List α)
  | _, 0 => [[]]
  | arr, n + 1 =>
    (selections arr).flatMap (fun s => (getPermutations s.2 n).map (s.1 :: ·))

/-- Modelled from the spec: the third-party `itertools-ts`
`permutations(data, len)` generator used by the pipeline and fused optimizers
is not part of the repository sources.  Per spec §4.1 the permutation
generator is "recursive selection — for each position, choose each remaining
unused element as the next pivot and recurse on the remainder", emits all
`n!` orderings by position, and for `len = 0` yields exactly one empty
permutation; this is exactly the repository's own `getPermutations`. -/
def permutations {α : Type} (data : List α) (len : Nat) : List (List α) :=
  getPermutations data len

/-- `single.pairwise(route)` from `itertools-ts`, as consumed by
`total_distance`: the list of overlapping consecutive pairs of `route`
(empty when the route has fewer than two elements). -/
def pairwise {α : Type} : List α → List (α × α)
  | a :: b :: rest => (a, b) :: pairwise (b :: rest)
  | _ => []

/-- `total_distance` (second implementation): starts at `0` and adds
`computeDistance([a, b])` for each consecutive pair, left to right. -/
def total_distance (d : α → α → R) (route : List α) : R :=
  (pairwise route).foldl (fun acc pr => acc + d pr.1 pr.2) 0

/-- `startAndEnd(start, end, inner)`: yields `start`, then the inner points,
then `end`. -/
def startAndEnd {α : Type} (start stop : α) (inner : List α) : List α :=
  start :: inner ++ [stop]

/-- `generateRoutes(start, end, inner)`: one assembled route per inner
permutation. -/
def generateRoutes {α : Type} (start stop : α) (inner : List (List α)) :
    List (List α) :=
  inner.map (startAndEnd start stop)

/-- `calculateDistances(routes, computeDistance)`: yields
`[distance, routeArray]` for every route, in order. -/
def calculateDistances (d : α → α → R) (routes : List (List α)) :
    List (R × List α) :=
  routes.map (fun r => (total_distance d r, r))

/-- JavaScript `Array.prototype.reduce` with no initial value, specialised to
the selection callback `(min, curr) => curr.distance < min.distance ? curr : min`
of the first implementation's `travelingSalesman`: the first element seeds the
accumulator and each later element replaces it only on a strictly smaller
score. -/
def minFold {β : Type} (x : R × β) (xs : List (R × β)) : R × β :=
  xs.foldl (fun m c => if c.1 < m.1 then c else m) x

/-- Modelled from the spec: `reduce.toMin` of `itertools-ts` (not part of the
repository sources).  Per spec §4.5 the pipeline must "select the route with
minimum score using strict less-than comparison — ties keep the
first-encountered minimum (the reduction must scan candidates in generation
order and only replace the current best when a strictly smaller score is
found, never on equal score)"; on an empty input it yields `undefined`
(`none`). -/
def toMin {β : Type} : List (R × β) → Option (R × β)
  | [] => none
  | x :: xs => some (minFold x xs)

/-- The pipeline optimizer `travelingSalesman` (second implementation):
enumerate permutations, assemble routes, score them, and take the minimum;
`if (!minRoute) return [start, end]`. -/
def travelingSalesman (inner : List α) (start stop : α)
    (d : α → α → R) : List α :=
  match toMin (calculateDistances d
      (generateRoutes start stop (permutations inner inner.length))) with
  | none => [start, stop]
  | some m => m.2

/-- The pairs passed to `computeDistance`, in execution order, when the fused
variant scores one (nonempty) permutation: `total_distance(route, ...)` first
(the consecutive inner pairs), then `computeDistance([start, route[0]])`, then
`computeDistance([route[route.length - 1], end])`. -/
def hrScoreTrace {α : Type} (start stop : α) : List α → List (α × α)
  | [] => []
  | p0 :: rest =>
    pairwise (p0 :: rest) ++
      [(start, p0), ((p0 :: rest).getLast (List.cons_ne_nil p0 rest), stop)]

/-- The pairs passed to `computeDistance`, in execution order, when the
pipeline variant scores the assembled route of a permutation: `total_distance`
walks the route `[start, ...p, end]` left to right. -/
def pipelineScoreTrace {α : Type} (start stop : α) (p : List α) :
    List (α × α) :=
  pairwise (startAndEnd start stop p)

/-- The fused variant's score of one permutation: the additions
`distance += computeDistance(...)` executed left to right over
`hrScoreTrace`, starting from `0`. -/
def hrScore (d : α → α → R) (start stop : α) (p : List α) : R :=
  (hrScoreTrace start stop p).foldl (fun acc pr => acc + d pr.1 pr.2) 0

/-- One iteration of the fused variant's loop, acting on the state
`(minDistance, minRoute)` with `minDistance = none` standing for the initial
`Infinity` (every score is `< Infinity`, so the first candidate always
replaces it).  For the empty permutation — which only arises when the input
is empty, as its single candidate — the JavaScript code reads `route[0]` and
`route[route.length - 1]` as `undefined`, the arithmetic distance function
yields `NaN`, and `NaN < Infinity` is false, so the state is unchanged;
`minRoute` remains `[]` in every reading of that corner, which is how the
iteration is modelled. -/
def hrStep (d : α → α → R) (start stop : α)
    (st : Option R × List α) (route : List α) : Option R × List α :=
  match route with
  | [] => st
  | p0 :: rest =>
    let dist := hrScore d start stop (p0 :: rest)
    match st.1 with
    | none => (some dist, p0 :: rest)
    | some m => if dist < m then (some dist, p0 :: rest) else st

/-- The fused optimizer `handRolledTravelingSalesman`: iterate the
permutations once, keep a running best distance and best route, and return
`[start, ...minRoute, end]`. -/
def handRolledTravelingSalesman (destinations : List α)
    (start stop : α) (d : α → α → R) : List α :=
  let final := (permutations destinations destinations.length).foldl
    (hrStep d start stop) (none, [])
  start :: final.2 ++ [stop]

/-- The per-route `distances` array of the first implementation's
`travelingSalesman`: `distances.push(computeDistance([route[i], route[i + 1]]))`
for `i` in `[0, route.length - 2]`, which is exactly `route.zip route.tail`. -/
def routeDistances (d : α → α → R) (route : List α) : List R :=
  (route.zip route.tail).map (fun pr => d pr.1 pr.2)

/-- The first implementation's per-route score:
`distances.reduce((a, b) => a + b, 0)`. -/
def v1Score (d : α → α → R) (route : List α) : R :=
  (routeDistances d route).foldl (· + ·) 0

section Cached

variable {ι ω : Type} [DecidableEq ι]

/-- The `Map` lookup used by `cachedFn` (`cache.has(input)` / `cache.get(input)`),
with the map's key equality modelled by decidable equality on the key type. -/
def cacheLookup (cache : List (ι × ω)) (k : ι) : Option ω :=
  (cache.find? (fun p => decide (p.1 = k))).map Prod.snd

/-- One call of the wrapper returned by `cachedFn f`: on a cache hit return
the stored value, otherwise invoke `f`, store the result, and return it.
The third component counts the invocations of `f` performed by this call. -/
def cachedCall (f : ι → ω) (cache : List (ι × ω)) (input : ι) :
    ω × List (ι × ω) × Nat :=
  match cacheLookup cache input with
  | some v => (v, cache, 0)
  | none => (f input, cache ++ [(input, f input)], 1)

/-- A sequence of calls to the wrapper, threading the cache through; returns
the outputs in order, the final cache, and the total number of invocations
of `f`. -/
def cachedRun (f : ι → ω) (cache : List (ι × ω)) :
    List ι → List ω × List (ι × ω) × Nat
  | [] => ([], cache, 0)
  | i :: rest =>
    let c := cachedCall f cache i
    let r := cachedRun f c.2.1 rest
    (c.1 :: r.1, r.2.1, c.2.2 + r.2.2)

end Cached

section Fallible

variable {ε : Type}

/-- The accumulation loop of `total_distance` (and of the fused variant's
scoring) with a distance function that may throw: the first failing
`computeDistance` call aborts with its error. -/
def sumE (d : α → α → Except ε R) : List (α × α) → R → Except ε R
  | [], acc => .ok acc
  | pr :: rest, acc =>
    match d pr.1 pr.2 with
    | .error e => .error e
    | .ok v => sumE d rest (acc + v)

/-- `calculateDistances` with a throwing distance function: routes are scored
in order and the first failing distance evaluation aborts the whole
enumeration with its error. -/
def scoreRoutesE (d : α → α → Except ε R) :
    List (List α) → Except ε (List (R × List α))
  | [] => .ok []
  | r :: rest =>
    match sumE d (pairwise r) 0 with
    | .error e => .error e
    | .ok q =>
      match scoreRoutesE d rest with
      | .error e => .error e
      | .ok l => .ok ((q, r) :: l)

/-- The pipeline optimizer with a throwing distance function: an error raised
by any queried pair propagates unmodified and no route is produced. -/
def travelingSalesmanE (inner : List α) (start stop : α)
    (d : α → α → Except ε R) : Except ε (List α) :=
  match scoreRoutesE d
      (generateRoutes start stop (permutations inner inner.length)) with
  | .error e => .error e
  | .ok distances =>
    match toMin distances with
    | none => .ok [start, stop]
    | some m => .ok m.2

/-- The fused optimizer's loop with a throwing distance function, over the
remaining permutations, threading the `(minDistance, minRoute)` state. -/
def hrRunE (d : α → α → Except ε R) (start stop : α) :
    Option R × List α → List (List α) → Except ε (Option R × List α)
  | st, [] => .ok st
  | st, route :: rest =>
    match route with
    | [] => hrRunE d start stop st rest
    | p0 :: t =>
      match sumE d (hrScoreTrace start stop (p0 :: t)) 0 with
      | .error e => .error e
      | .ok s =>
        hrRunE d start stop
          (match st.1 with
            | none => (some s, p0 :: t)
            | some m => if s < m then (some s, p0 :: t) else st) rest

/-- The fused optimizer with a throwing distance function. -/
def handRolledTravelingSalesmanE (destinations : List α) (start stop : α)
    (d : α → α → Except ε R) : Except ε (List α) :=
  match hrRunE d start stop (none, [])
      (permutations destinations destinations.length) with
  | .error e => .error e
  | .ok final => .ok (start :: final.2 ++ [stop])

/-- All pairs the pipeline optimizer passes to `computeDistance` during a
complete search: the consecutive pairs of every assembled candidate route. -/
def tspQueries {α : Type} (inner : List α) (start stop : α) : List (α × α) :=
  (generateRoutes start stop (permutations inner inner.length)).flatMap pairwise

/-- All pairs the fused optimizer passes to `computeDistance` during a
complete search. -/
def hrQueries {α : Type} (destinations : List α) (start stop : α) :
    List (α × α) :=
  (permutations destinations destinations.length).flatMap
    (hrScoreTrace start stop)

end Fallible

/-- The distance function of the repository's tests and benchmark,
`(pair) => Math.abs(pair[0] - pair[1])`, written with an executable case
split so that concrete runs reduce inside the kernel. -/
def absDist (a b : ℤ) : ℤ := if a < b then b - a else a - b

theorem absDist_eq_abs (a b : ℤ) : absDist a b = |a - b| := by
  unfold absDist
  rcases lt_or_le a b with h | h
  · rw [if_pos h, abs_of_neg (by linarith), neg_sub]
  · rw [if_neg (not_lt.mpr h), abs_of_nonneg (by linarith)]

theorem selections_length (l : List α) : (selections l).length = l.length := by
  induction l with
  | nil => rfl
  | cons x xs ih => simp [selections, ih]

theorem mem_selections_length {l : List α} {s : α × List α}
    (h : s ∈ selections l) : s.2.length + 1 = l.length := by
  induction l generalizing s with
  | nil => simp [selections] at h
  | cons x xs ih =>
    simp only [selections, List.mem_cons, List.mem_map] at h
    rcases h with rfl | ⟨p, hp, rfl⟩
    · simp
    · simpa using ih hp

theorem mem_selections_perm {l : List α} {s : α × List α}
    (h : s ∈ selections l) : (s.1 :: s.2).Perm l := by
  induction l generalizing s with
  | nil => simp [selections] at h
  | cons x xs ih =>
    simp only [selections, List.mem_cons, List.mem_map] at h
    rcases h with rfl | ⟨p, hp, rfl⟩
    · exact List.Perm.refl _
    · exact (List.Perm.swap x p.1 p.2).trans ((ih hp).cons x)

theorem selections_erase [DecidableEq α] {l : List α} {c : α} (h : c ∈ l) :
    (c, l.erase c) ∈ selections l := by
  induction l with
  | nil => simp at h
  | cons x xs ih =>
    by_cases hx : x = c
    · subst hx
      simp [selections, List.erase_cons_head]
    · rcases List.mem_cons.mp h with rfl | hmem
      · exact absurd rfl hx
      · have : (c, xs.erase c) ∈ selections xs := ih hmem
        simp only [selections, List.mem_cons, List.mem_map]
        right
        refine ⟨(c, xs.erase c), this, ?_⟩
        rw [List.erase_cons_tail]
        simp [hx]

theorem length_getPermutations :
    ∀ (n : Nat) (arr : List α), arr.length = n →
      (getPermutations arr n).length = Nat.factorial n := by
  intro n
  induction n with
  | zero => intro arr _; rfl
  | succ n ih =>
    intro arr harr
    have hlen : ∀ s ∈ selections arr,
        (getPermutations s.2 n).length = Nat.factorial n := by
      intro s hs
      have h2 : s.2.length = n := by
        have := mem_selections_length hs
        omega
      exact ih s.2 h2
    calc (getPermutations arr (n + 1)).length
        = ((selections arr).map
            (fun s => (getPermutations s.2 n).length)).sum := by
          simp only [getPermutations, List.length_flatMap]
          refine congrArg List.sum (List.map_congr_left ?_)
          intro s _
          simp [Function.comp, List.length_map]
      _ = ((selections arr).map (fun _ => Nat.factorial n)).sum := by
          rw [List.map_congr_left hlen]
      _ = Nat.factorial (n + 1) := by
          rw [List.map_const', List.sum_replicate, selections_length, harr,
            smul_eq_mul, Nat.factorial_succ]

theorem perm_of_mem_getPermutations :
    ∀ {n : Nat} {arr : List α}, arr.length = n →
      ∀ {p : List α}, p ∈ getPermutations arr n → p.Perm arr := by
  intro n
  induction n with
  | zero =>
    intro arr harr p hp
    have : arr = [] := List.length_eq_zero.mp harr
    subst this
    simp only [getPermutations, List.mem_singleton] at hp
    subst hp
    exact List.Perm.refl _
  | succ n ih =>
    intro arr harr p hp
    simp only [getPermutations, List.mem_flatMap, List.mem_map] at hp
    obtain ⟨s, hs, q, hq, rfl⟩ := hp
    have h2 : s.2.length = n := by
      have := mem_selections_length hs
      omega
    exact ((ih h2 hq).cons s.1).trans (mem_selections_perm hs)

theorem mem_getPermutations_of_perm [DecidableEq α] :
    ∀ {n : Nat} {arr : List α}, arr.length = n →
      ∀ {p : List α}, p.Perm arr → p ∈ getPermutations arr n := by
  intro n
  induction n with
  | zero =>
    intro arr harr p hp
    have : arr = [] := List.length_eq_zero.mp harr
    subst this
    have : p = [] := List.Perm.eq_nil hp
    simp [this, getPermutations]
  | succ n ih =>
    intro arr harr p hp
    have hplen : p.length = n + 1 := by rw [hp.length_eq, harr]
    match p, hplen with
    | c :: q, _ =>
      have hc : c ∈ arr := hp.subset (List.mem_cons_self c q)
      have hq : q.Perm (arr.erase c) :=
        List.Perm.cons_inv (hp.trans (List.perm_cons_erase hc))
      have herase : (arr.erase c).length = n := by
        rw [List.length_erase_of_mem hc, harr]
        omega
      simp only [getPermutations, List.mem_flatMap, List.mem_map]
      exact ⟨(c, arr.erase c), selections_erase hc, q, ih herase hq, rfl⟩

theorem pairwise_eq_zip : ∀ l : List α, pairwise l = l.zip l.tail
  | [] => rfl
  | [_] => rfl
  | a :: b :: t => by
    simp only [pairwise, List.tail_cons, List.zip_cons_cons, List.cons.injEq,
      true_and]
    exact pairwise_eq_zip (b :: t)

theorem foldl_add_shift (d : α → α → R) :
    ∀ (l : List (α × α)) (c : R),
      l.foldl (fun acc pr => acc + d pr.1 pr.2) c
        = c + l.foldl (fun acc pr => acc + d pr.1 pr.2) 0 := by
  intro l
  induction l with
  | nil => intro c; simp
  | cons pr rest ih =>
    intro c
    simp only [List.foldl_cons]
    rw [ih (c + d pr.1 pr.2), ih (0 + d pr.1 pr.2), zero_add, add_assoc]

theorem total_distance_cons (d : α → α → R) (a b : α) (t : List α) :
    total_distance d (a :: b :: t) = d a b + total_distance d (b :: t) := by
  simp only [total_distance, pairwise, List.foldl_cons]
  rw [foldl_add_shift, zero_add]

theorem total_distance_short (d : α → α → R) (route : List α)
    (h : route.length < 2) : total_distance d route = 0 := by
  match route, h with
  | [], _ => rfl
  | [_], _ => rfl

theorem total_distance_snoc (d : α → α → R) :
    ∀ (l : List α) (h : l ≠ []) (e : α),
      total_distance d (l ++ [e]) = total_distance d l + d (l.getLast h) e
  | [a], _, e => by
    simp [total_distance, pairwise]
  | a :: b :: t, _, e => by
    show total_distance d (a :: b :: (t ++ [e])) = _
    rw [total_distance_cons]
    have hbt : b :: (t ++ [e]) = (b :: t) ++ [e] := rfl
    rw [hbt, total_distance_snoc d (b :: t) (List.cons_ne_nil b t) e,
      total_distance_cons, List.getLast_cons (List.cons_ne_nil b t), add_assoc]

theorem total_distance_eq_sum (d : α → α → R) (x : α) :
    ∀ route : List α,
      total_distance d route =
        ∑ i ∈ Finset.range (route.length - 1),
          d (route.getD i x) (route.getD (i + 1) x)
  | [] => by simp [total_distance, pairwise]
  | [_] => by simp [total_distance, pairwise]
  | a :: b :: t => by
    rw [total_distance_cons, total_distance_eq_sum d x (b :: t)]
    have hlen : (a :: b :: t).length - 1 = t.length + 1 := by simp
    have hlen' : (b :: t).length - 1 = t.length := by simp
    rw [hlen, hlen', Finset.sum_range_succ']
    simp only [List.getD_cons_succ, List.getD_cons_zero]
    exact add_comm _ _

theorem v1Score_eq_total_distance (d : α → α → R) (route : List α) :
    v1Score d route = total_distance d route := by
  rw [v1Score, routeDistances, List.foldl_map, total_distance, pairwise_eq_zip]

theorem pairwise_snoc :
    ∀ (l : List α) (h : l ≠ []) (e : α),
      pairwise (l ++ [e]) = pairwise l ++ [(l.getLast h, e)]
  | [a], _, e => rfl
  | a :: b :: t, _, e => by
    show (a, b) :: pairwise ((b :: t) ++ [e]) = _
    rw [pairwise_snoc (b :: t) (List.cons_ne_nil b t) e,
      List.getLast_cons (List.cons_ne_nil b t)]
    rfl

theorem pipelineScoreTrace_eq (start stop p0 : α) (rest : List α) :
    pipelineScoreTrace start stop (p0 :: rest) =
      ((start, p0) :: pairwise (p0 :: rest)) ++
        [((p0 :: rest).getLast (List.cons_ne_nil p0 rest), stop)] := by
  show pairwise ((start :: p0 :: rest) ++ [stop]) = _
  rw [pairwise_snoc (start :: p0 :: rest)
      (List.cons_ne_nil start (p0 :: rest)) stop,
    List.getLast_cons (List.cons_ne_nil p0 rest)]
  rfl

theorem hrScoreTrace_perm_pipelineScoreTrace (start stop p0 : α)
    (rest : List α) :
    (hrScoreTrace start stop (p0 :: rest)).Perm
      (pipelineScoreTrace start stop (p0 :: rest)) := by
  rw [pipelineScoreTrace_eq]
  have h : hrScoreTrace start stop (p0 :: rest)
      = (pairwise (p0 :: rest) ++ [(start, p0)]) ++
        [((p0 :: rest).getLast (List.cons_ne_nil p0 rest), stop)] := by
    simp [hrScoreTrace]
  rw [h]
  exact (List.perm_append_comm).append_right _

theorem hrScore_decompose (d : α → α → R) (start stop p0 : α) (rest : List α) :
    hrScore d start stop (p0 :: rest) =
      total_distance d (p0 :: rest) + d start p0 +
        d ((p0 :: rest).getLast (List.cons_ne_nil p0 rest)) stop := by
  unfold hrScore hrScoreTrace
  rw [List.foldl_append]
  rfl

theorem hrScore_eq_pipeline_score (d : α → α → R) (start stop p0 : α)
    (rest : List α) :
    hrScore d start stop (p0 :: rest) =
      total_distance d (startAndEnd start stop (p0 :: rest)) := by
  rw [hrScore_decompose]
  show _ = total_distance d ((start :: p0 :: rest) ++ [stop])
  rw [total_distance_snoc d (start :: p0 :: rest)
      (List.cons_ne_nil start (p0 :: rest)) stop,
    total_distance_cons, List.getLast_cons (List.cons_ne_nil p0 rest),
    add_comm (total_distance d (p0 :: rest)) (d start p0)]

theorem minFold_cons {β : Type} (x c : R × β) (t : List (R × β)) :
    minFold x (c :: t) = minFold (if c.1 < x.1 then c else x) t := rfl

theorem minFold_cons' {β : Type} (x1 c1 : R) (x2 c2 : β) (t : List (R × β)) :
    minFold (x1, x2) ((c1, c2) :: t)
      = minFold (if c1 < x1 then (c1, c2) else (x1, x2)) t := by
  rfl

theorem minFold_eq_or_mem {β : Type} :
    ∀ (xs : List (R × β)) (x : R × β), minFold x xs = x ∨ minFold x xs ∈ xs := by
  intro xs
  induction xs with
  | nil => intro x; left; rfl
  | cons c t ih =>
    intro x
    rw [minFold_cons]
    by_cases hc : c.1 < x.1
    · rw [if_pos hc]
      rcases ih c with h | h
      · right; exact List.mem_cons.mpr (Or.inl h)
      · right; exact List.mem_cons_of_mem c h
    · rw [if_neg hc]
      rcases ih x with h | h
      · left; exact h
      · right; exact List.mem_cons_of_mem c h

theorem minFold_le {β : Type} :
    ∀ (xs : List (R × β)) (x : R × β),
      (minFold x xs).1 ≤ x.1 ∧ ∀ c ∈ xs, (minFold x xs).1 ≤ c.1 := by
  intro xs
  induction xs with
  | nil => intro x; exact ⟨le_refl _, by simp⟩
  | cons c t ih =>
    intro x
    rw [minFold_cons]
    obtain ⟨h1, h2⟩ := ih (if c.1 < x.1 then c else x)
    have hstep : (if c.1 < x.1 then c else x).1 ≤ x.1 ∧
        (if c.1 < x.1 then c else x).1 ≤ c.1 := by
      by_cases hc : c.1 < x.1
      · rw [if_pos hc]; exact ⟨le_of_lt hc, le_refl _⟩
      · rw [if_neg hc]; exact ⟨le_refl _, not_lt.mp hc⟩
    refine ⟨le_trans h1 hstep.1, ?_⟩
    intro e he
    rcases List.mem_cons.mp he with rfl | he'
    · exact le_trans h1 hstep.2
    · exact h2 e he'

theorem minFold_of_not_lt {β : Type} :
    ∀ (xs : List (R × β)) (x : R × β),
      (∀ c ∈ xs, ¬ c.1 < x.1) → minFold x xs = x := by
  intro xs
  induction xs with
  | nil => intro x _; rfl
  | cons c t ih =>
    intro x h
    rw [minFold_cons, if_neg (h c (List.mem_cons_self c t))]
    exact ih x (fun e he => h e (List.mem_cons_of_mem c he))

theorem find?_congr {γ : Type} {p q : γ → Bool} :
    ∀ l : List γ, (∀ y ∈ l, p y = q y) → l.find? p = l.find? q := by
  intro l
  induction l with
  | nil => intro _; rfl
  | cons a t ih =>
    intro h
    rw [List.find?_cons, List.find?_cons, h a (List.mem_cons_self a t),
      ih (fun y hy => h y (List.mem_cons_of_mem a hy))]

theorem find?_isSome_of_exists {γ : Type} {p : γ → Bool} {l : List γ} {y : γ}
    (hy : y ∈ l) (hp : p y = true) : ∃ w, l.find? p = some w := by
  rcases hfind : l.find? p with _ | w
  · exact absurd hp (by simpa using List.find?_eq_none.mp hfind y hy)
  · exact ⟨w, rfl⟩

theorem minFold_eq_match_find? {β : Type} :
    ∀ (xs : List (R × β)) (m : R × β),
      minFold m xs =
        match xs.find? (fun y => decide (y.1 < m.1 ∧ ∀ z ∈ xs, y.1 ≤ z.1)) with
        | some y => y
        | none => m := by
  intro xs
  induction xs with
  | nil => intro m; rfl
  | cons c t ih =>
    intro m
    rw [minFold_cons]
    by_cases hc : c.1 < m.1
    · rw [if_pos hc]
      by_cases hmin : ∀ z ∈ t, c.1 ≤ z.1
      · have hpred : decide (c.1 < m.1 ∧ ∀ z ∈ c :: t, c.1 ≤ z.1) = true := by
          simp only [decide_eq_true_eq]
          refine ⟨hc, fun z hz => ?_⟩
          rcases List.mem_cons.mp hz with rfl | hz'
          · exact le_refl _
          · exact hmin z hz'
        rw [List.find?_cons_of_pos
          (p := fun y => decide (y.1 < m.1 ∧ ∀ z ∈ c :: t, y.1 ≤ z.1)) t hpred]
        show minFold c t = c
        exact minFold_of_not_lt t c (fun z hz => not_lt.mpr (hmin z hz))
      · push_neg at hmin
        obtain ⟨z, hz, hzc⟩ := hmin
        have hpredc :
            ¬ ((fun (y : R × β) =>
              decide (y.1 < m.1 ∧ ∀ z ∈ c :: t, y.1 ≤ z.1)) c = true) := by
          simp only [decide_eq_true_eq, not_and]
          intro _ hall
          exact absurd (hall z (List.mem_cons_of_mem c hz)) (not_le.mpr hzc)
        rw [List.find?_cons_of_neg
          (p := fun y => decide (y.1 < m.1 ∧ ∀ z ∈ c :: t, y.1 ≤ z.1)) t hpredc,
          ih c]
        have hsame : t.find? (fun y => decide (y.1 < c.1 ∧ ∀ z ∈ t, y.1 ≤ z.1))
            = t.find? (fun y => decide (y.1 < m.1 ∧ ∀ z ∈ c :: t, y.1 ≤ z.1)) := by
          apply find?_congr
          intro y _
          apply decide_eq_decide.mpr
          constructor
          · rintro ⟨hyc, hymin⟩
            refine ⟨lt_trans hyc hc, fun w hw => ?_⟩
            rcases List.mem_cons.mp hw with rfl | hw'
            · exact le_of_lt hyc
            · exact hymin w hw'
          · rintro ⟨_, hyall⟩
            exact ⟨lt_of_le_of_lt (hyall z (List.mem_cons_of_mem c hz)) hzc,
              fun w hw => hyall w (List.mem_cons_of_mem c hw)⟩
        rw [hsame]
        have hm : minFold z t ∈ z :: t := by
          rcases minFold_eq_or_mem t z with h | h
          · rw [h]; exact List.mem_cons_self z t
          · exact List.mem_cons_of_mem z h
        have hmint : minFold z t ∈ t := by
          rcases List.mem_cons.mp hm with heq | h
          · rw [heq]; exact hz
          · exact h
        have hminle : ∀ w ∈ t, (minFold z t).1 ≤ w.1 := by
          intro w hw
          obtain ⟨h1, h2⟩ := minFold_le t z
          exact h2 w hw
        have hwitness :
            (fun (y : R × β) => decide (y.1 < m.1 ∧ ∀ z ∈ c :: t, y.1 ≤ z.1))
              (minFold z t) = true := by
          simp only [decide_eq_true_eq]
          have hltc : (minFold z t).1 < c.1 := lt_of_le_of_lt (hminle z hz) hzc
          refine ⟨lt_trans hltc hc, fun w hw => ?_⟩
          rcases List.mem_cons.mp hw with rfl | hw'
          · exact le_of_lt hltc
          · exact hminle w hw'
        have hex : ∃ w, t.find?
            (fun y => decide (y.1 < m.1 ∧ ∀ z ∈ c :: t, y.1 ≤ z.1)) = some w :=
          find?_isSome_of_exists hmint hwitness
        obtain ⟨w, hw⟩ := hex
        simp only [hw]
    · rw [if_neg hc]
      have hpredc :
          ¬ ((fun (y : R × β) =>
            decide (y.1 < m.1 ∧ ∀ z ∈ c :: t, y.1 ≤ z.1)) c = true) := by
        simp only [decide_eq_true_eq, not_and]
        intro h1 _
        exact hc h1
      rw [List.find?_cons_of_neg
        (p := fun y => decide (y.1 < m.1 ∧ ∀ z ∈ c :: t, y.1 ≤ z.1)) t hpredc,
        ih m]
      have hsame : t.find? (fun y => decide (y.1 < m.1 ∧ ∀ z ∈ t, y.1 ≤ z.1))
          = t.find? (fun y => decide (y.1 < m.1 ∧ ∀ z ∈ c :: t, y.1 ≤ z.1)) := by
        apply find?_congr
        intro y _
        apply decide_eq_decide.mpr
        constructor
        · rintro ⟨hym, hymin⟩
          refine ⟨hym, fun w hw => ?_⟩
          rcases List.mem_cons.mp hw with rfl | hw'
          · exact le_trans (le_of_lt hym) (not_lt.mp hc)
          · exact hymin w hw'
        · rintro ⟨hym, hyall⟩
          exact ⟨hym, fun w hw => hyall w (List.mem_cons_of_mem c hw)⟩
      rw [hsame]

theorem find?_min_eq_minFold {β : Type} (x : R × β) (xs : List (R × β)) :
    (x :: xs).find? (fun y => decide (∀ z ∈ x :: xs, y.1 ≤ z.1))
      = some (minFold x xs) := by
  by_cases hx : ∀ z ∈ x :: xs, x.1 ≤ z.1
  · rw [List.find?_cons_of_pos
      (p := fun y => decide (∀ z ∈ x :: xs, y.1 ≤ z.1)) xs (decide_eq_true hx)]
    have : minFold x xs = x :=
      minFold_of_not_lt xs x
        (fun c hc => not_lt.mpr (hx c (List.mem_cons_of_mem x hc)))
    rw [this]
  · have hx' :
        ¬ ((fun (y : R × β) => decide (∀ z ∈ x :: xs, y.1 ≤ z.1)) x = true) := by
      simpa using hx
    rw [List.find?_cons_of_neg
      (p := fun y => decide (∀ z ∈ x :: xs, y.1 ≤ z.1)) xs hx']
    push_neg at hx
    obtain ⟨z, hzmem, hzx⟩ := hx
    have hz : z ∈ xs := by
      rcases List.mem_cons.mp hzmem with rfl | h
      · exact absurd hzx (lt_irrefl _)
      · exact h
    have hcongr : xs.find? (fun y => decide (∀ w ∈ x :: xs, y.1 ≤ w.1))
        = xs.find? (fun y => decide (y.1 < x.1 ∧ ∀ w ∈ xs, y.1 ≤ w.1)) := by
      apply find?_congr
      intro y _
      apply decide_eq_decide.mpr
      constructor
      · intro hall
        exact ⟨lt_of_le_of_lt (hall z hzmem) hzx,
          fun w hw => hall w (List.mem_cons_of_mem x hw)⟩
      · rintro ⟨hyx, hymin⟩
        intro w hw
        rcases List.mem_cons.mp hw with rfl | hw'
        · exact le_of_lt hyx
        · exact hymin w hw'
    rw [hcongr, minFold_eq_match_find? xs x]
    obtain ⟨z0, t0, rfl⟩ := List.exists_cons_of_ne_nil (List.ne_nil_of_mem hz)
    have hmem : minFold z0 t0 ∈ z0 :: t0 := by
      rcases minFold_eq_or_mem t0 z0 with h | h
      · rw [h]; exact List.mem_cons_self z0 t0
      · exact List.mem_cons_of_mem z0 h
    have hle : ∀ w ∈ z0 :: t0, (minFold z0 t0).1 ≤ w.1 := by
      intro w hw
      obtain ⟨h1, h2⟩ := minFold_le t0 z0
      rcases List.mem_cons.mp hw with rfl | hw'
      · exact h1
      · exact h2 w hw'
    have hwitness :
        (fun (y : R × β) => decide (y.1 < x.1 ∧ ∀ w ∈ z0 :: t0, y.1 ≤ w.1))
          (minFold z0 t0) = true := by
      simp only [decide_eq_true_eq]
      exact ⟨lt_of_le_of_lt (hle z hz) hzx, hle⟩
    have hex : ∃ w, (z0 :: t0).find?
        (fun y => decide (y.1 < x.1 ∧ ∀ w ∈ z0 :: t0, y.1 ≤ w.1)) = some w :=
      find?_isSome_of_exists hmem hwitness
    obtain ⟨w, hw⟩ := hex
    simp only [hw]

theorem minFold_map_payload {β γ : Type} (g : β → γ) :
    ∀ (xs : List (R × β)) (x1 : R) (x2 : β),
      minFold (x1, g x2) (xs.map (fun c => (c.1, g c.2)))
        = ((minFold (x1, x2) xs).1, g (minFold (x1, x2) xs).2) := by
  intro xs
  induction xs with
  | nil => intro x1 x2; rfl
  | cons c t ih =>
    intro x1 x2
    rw [List.map_cons, minFold_cons' x1 c.1 (g x2) (g c.2), minFold_cons]
    by_cases hc : c.1 < x1
    · rw [if_pos hc, if_pos hc]
      exact ih c.1 c.2
    · rw [if_neg hc, if_neg hc]
      exact ih x1 x2

theorem hr_foldl_eq_minFold (d : α → α → R) (start stop : α) :
    ∀ (ps : List (List α)), (∀ p ∈ ps, p ≠ []) → ∀ (m : R) (r : List α),
      ps.foldl (hrStep d start stop) (some m, r)
        = (some (minFold (m, r)
            (ps.map (fun p => (hrScore d start stop p, p)))).1,
           (minFold (m, r)
            (ps.map (fun p => (hrScore d start stop p, p)))).2) := by
  intro ps
  induction ps with
  | nil => intro _ m r; rfl
  | cons p t ih =>
    intro hne m r
    obtain ⟨p0, prest, rfl⟩ :=
      List.exists_cons_of_ne_nil (hne p (List.mem_cons_self p t))
    rw [List.foldl_cons, List.map_cons, minFold_cons']
    have hstep : hrStep d start stop (some m, r) (p0 :: prest)
        = if hrScore d start stop (p0 :: prest) < m
          then (some (hrScore d start stop (p0 :: prest)), p0 :: prest)
          else (some m, r) := rfl
    by_cases hd : hrScore d start stop (p0 :: prest) < m
    · rw [hstep, if_pos hd, if_pos hd]
      exact ih (fun q hq => hne q (List.mem_cons_of_mem _ hq)) _ _
    · rw [hstep, if_neg hd, if_neg hd]
      exact ih (fun q hq => hne q (List.mem_cons_of_mem _ hq)) _ _

theorem permutations_ne_nil (inner : List α) :
    permutations inner inner.length ≠ [] := by
  have hfac : (permutations inner inner.length).length
      = Nat.factorial inner.length := length_getPermutations inner.length inner rfl
  intro h
  rw [h] at hfac
  have := Nat.factorial_pos inner.length
  simp only [List.length_nil] at hfac
  omega

theorem perm_mem_ne_nil {inner : List α} {p : List α}
    (hp : p ∈ permutations inner inner.length) (hne : inner ≠ []) :
    p ≠ [] := by
  have hperm : p.Perm inner := perm_of_mem_getPermutations rfl hp
  intro hpnil
  rw [hpnil] at hperm
  exact hne (hperm.nil_eq).symm

theorem travelingSalesman_eq (inner : List α) (start stop : α) (d : α → α → R)
    (p0 : List α) (prest : List (List α))
    (hperm : permutations inner inner.length = p0 :: prest) :
    travelingSalesman inner start stop d
      = (minFold
          (total_distance d (startAndEnd start stop p0), startAndEnd start stop p0)
          ((prest.map (startAndEnd start stop)).map
            (fun r => (total_distance d r, r)))).2 := by
  unfold travelingSalesman
  rw [hperm]
  rfl

theorem handRolled_eq (destinations : List α) (start stop : α) (d : α → α → R)
    (p0 : List α) (prest : List (List α))
    (hperm : permutations destinations destinations.length = p0 :: prest)
    (hp0 : p0 ≠ []) (hprest : ∀ p ∈ prest, p ≠ []) :
    handRolledTravelingSalesman destinations start stop d
      = startAndEnd start stop
          (minFold (hrScore d start stop p0, p0)
            (prest.map (fun p => (hrScore d start stop p, p)))).2 := by
  show startAndEnd start stop
      ((permutations destinations destinations.length).foldl
        (hrStep d start stop) (none, [])).2 = _
  rw [hperm, List.foldl_cons]
  obtain ⟨q0, qrest, rfl⟩ := List.exists_cons_of_ne_nil hp0
  have hstep : hrStep d start stop ((none : Option R), ([] : List α)) (q0 :: qrest)
      = (some (hrScore d start stop (q0 :: qrest)), q0 :: qrest) := rfl
  rw [hstep, hr_foldl_eq_minFold d start stop prest hprest]

theorem travelingSalesman_eq_handRolled (inner : List α) (start stop : α)
    (d : α → α → R) :
    travelingSalesman inner start stop d
      = handRolledTravelingSalesman inner start stop d := by
  rcases hin : inner with _ | ⟨i0, irest⟩
  · rfl
  · obtain ⟨p0, prest, hperm⟩ :=
      List.exists_cons_of_ne_nil (permutations_ne_nil (i0 :: irest))
    have hall : ∀ p ∈ permutations (i0 :: irest) (i0 :: irest).length, p ≠ [] := by
      intro p hp
      exact perm_mem_ne_nil hp (List.cons_ne_nil i0 irest)
    have hp0 : p0 ≠ [] := by
      refine hall p0 ?_
      rw [hperm]
      exact List.mem_cons_self p0 prest
    have hprest : ∀ p ∈ prest, p ≠ [] := by
      intro p hp
      refine hall p ?_
      rw [hperm]
      exact List.mem_cons_of_mem p0 hp
    rw [travelingSalesman_eq _ _ _ _ _ _ hperm,
      handRolled_eq _ _ _ _ _ _ hperm hp0 hprest]
    have hmap : (prest.map (startAndEnd start stop)).map
        (fun r => (total_distance d r, r))
        = (prest.map (fun p => (hrScore d start stop p, p))).map
          (fun c => (c.1, startAndEnd start stop c.2)) := by
      rw [List.map_map, List.map_map]
      apply List.map_congr_left
      intro p hp
      obtain ⟨q0, qrest, rfl⟩ := List.exists_cons_of_ne_nil (hprest p hp)
      simp only [Function.comp_apply]
      rw [hrScore_eq_pipeline_score]
    obtain ⟨q0, qrest, rfl⟩ := List.exists_cons_of_ne_nil hp0
    rw [hmap, ← hrScore_eq_pipeline_score,
      minFold_map_payload (startAndEnd start stop)
        (prest.map (fun p => (hrScore d start stop p, p)))
        (hrScore d start stop (q0 :: qrest)) (q0 :: qrest)]

theorem tsp_exists_perm (inner : List α) (start stop : α) (d : α → α → R) :
    ∃ p, p.Perm inner ∧
      travelingSalesman inner start stop d = startAndEnd start stop p := by
  obtain ⟨p0, prest, hperm⟩ :=
    List.exists_cons_of_ne_nil (permutations_ne_nil inner)
  rw [travelingSalesman_eq inner start stop d p0 prest hperm]
  rcases minFold_eq_or_mem
      ((prest.map (startAndEnd start stop)).map (fun r => (total_distance d r, r)))
      (total_distance d (startAndEnd start stop p0), startAndEnd start stop p0)
    with h | h
  · rw [h]
    refine ⟨p0, ?_, rfl⟩
    refine perm_of_mem_getPermutations rfl ?_
    show p0 ∈ permutations inner inner.length
    rw [hperm]
    exact List.mem_cons_self p0 prest
  · simp only [List.mem_map] at h
    obtain ⟨r, ⟨p, hp, rfl⟩, hEq⟩ := h
    refine ⟨p, ?_, ?_⟩
    · refine perm_of_mem_getPermutations rfl ?_
      show p ∈ permutations inner inner.length
      rw [hperm]
      exact List.mem_cons_of_mem p0 hp
    · rw [← hEq]

example : getPermutations [1, 2, 3] 3 =
    [[1, 2, 3], [1, 3, 2], [2, 1, 3], [2, 3, 1], [3, 1, 2], [3, 2, 1]] := by
  decide

example : travelingSalesman [2, 1] 0 3 absDist = [0, 1, 2, 3] := by decide

example : handRolledTravelingSalesman [2, 1] 0 3 absDist = [0, 1, 2, 3] := by
  decide

theorem startAndEnd_length (start stop : α) (p : List α) :
    (startAndEnd start stop p).length = p.length + 2 := by
  simp [startAndEnd]

theorem startAndEnd_head? (start stop : α) (p : List α) :
    (startAndEnd start stop p).head? = some start := rfl

theorem startAndEnd_getLast? (start stop : α) (p : List α) :
    (startAndEnd start stop p).getLast? = some stop := by
  show ((start :: p) ++ [stop]).getLast? = some stop
  exact List.getLast?_concat _

theorem startAndEnd_middle (start stop : α) (p : List α) :
    (startAndEnd start stop p).tail.dropLast = p := by
  show (p ++ [stop]).dropLast = p
  exact List.dropLast_concat

theorem hr_exists_perm (inner : List α) (start stop : α) (d : α → α → R) :
    ∃ p, p.Perm inner ∧
      handRolledTravelingSalesman inner start stop d = startAndEnd start stop p := by
  obtain ⟨p, hperm, heq⟩ := tsp_exists_perm inner start stop d
  exact ⟨p, hperm, (travelingSalesman_eq_handRolled inner start stop d) ▸ heq⟩

/-- C1: for every inner-destination sequence, start, end, and distance
function, the route returned by `travelingSalesman` and by
`handRolledTravelingSalesman` has length `n + 2`, starts with `start`, ends
with `end`, and its middle `n` elements are a permutation (same multiset) of
the inner destinations. -/
theorem traveling_salesman_route_shape (inner : List α) (start stop : α)
    (d : α → α → R) :
    (travelingSalesman inner start stop d).length = inner.length + 2
    ∧ (travelingSalesman inner start stop d).head? = some start
    ∧ (travelingSalesman inner start stop d).getLast? = some stop
    ∧ ((travelingSalesman inner start stop d).tail.dropLast).Perm inner
    ∧ (handRolledTravelingSalesman inner start stop d).length = inner.length + 2
    ∧ (handRolledTravelingSalesman inner start stop d).head? = some start
    ∧ (handRolledTravelingSalesman inner start stop d).getLast? = some stop
    ∧ ((handRolledTravelingSalesman inner start stop d).tail.dropLast).Perm inner
    := by
  obtain ⟨p, hperm, heq⟩ := tsp_exists_perm inner start stop d
  obtain ⟨q, hqperm, hqeq⟩ := hr_exists_perm inner start stop d
  rw [heq, hqeq, startAndEnd_length, startAndEnd_length, startAndEnd_head?,
    startAndEnd_head?, startAndEnd_getLast?, startAndEnd_getLast?,
    startAndEnd_middle, startAndEnd_middle, hperm.length_eq, hqperm.length_eq]
  exact ⟨rfl, rfl, rfl, hperm, rfl, rfl, rfl, hqperm⟩

/-- C2: for every input, the total distance of the route returned by
`travelingSalesman` equals the total distance of the route returned by
`handRolledTravelingSalesman` (in exact arithmetic the two variants in fact
return the same route). -/
theorem traveling_salesman_total_distance_equiv (inner : List α)
    (start stop : α) (d : α → α → R) :
    total_distance d (travelingSalesman inner start stop d)
      = total_distance d (handRolledTravelingSalesman inner start stop d) :=
  congrArg (total_distance d) (travelingSalesman_eq_handRolled inner start stop d)

/-- C4 counterexample: the fused variant does not execute its additions in the
pipeline's left-to-right route order.  For the permutation `[1, 2]` with
`start = 0`, `end = 3`, the pipeline queries
`(0,1), (1,2), (2,3)` in that order while the fused variant queries
`(1,2), (0,1), (2,3)`. -/
theorem hr_trace_ne_pipeline_trace :
    hrScoreTrace (0 : ℕ) 3 [1, 2] ≠ pipelineScoreTrace (0 : ℕ) 3 [1, 2] := by
  decide

/-- C4 (amended): the pipeline accumulates left to right along the assembled
route — `(start, p0)` first, then the consecutive inner pairs, then
`(p_last, end)` — while the fused variant accumulates the consecutive inner
pairs first and only then adds the start edge and the end edge.  The two
execution orders are permutations of one another, so over exact arithmetic
the accumulated totals coincide. -/
theorem score_accumulation_orders (d : α → α → R) (start stop p0 : α)
    (rest : List α) :
    pipelineScoreTrace start stop (p0 :: rest)
        = ((start, p0) :: pairwise (p0 :: rest)) ++
          [((p0 :: rest).getLast (List.cons_ne_nil p0 rest), stop)]
    ∧ hrScoreTrace start stop (p0 :: rest)
        = pairwise (p0 :: rest) ++
          [(start, p0), ((p0 :: rest).getLast (List.cons_ne_nil p0 rest), stop)]
    ∧ (hrScoreTrace start stop (p0 :: rest)).Perm
        (pipelineScoreTrace start stop (p0 :: rest))
    ∧ hrScore d start stop (p0 :: rest)
        = total_distance d (startAndEnd start stop (p0 :: rest)) :=
  ⟨pipelineScoreTrace_eq start stop p0 rest, rfl,
   hrScoreTrace_perm_pipelineScoreTrace start stop p0 rest,
   hrScore_eq_pipeline_score d start stop p0 rest⟩

/-- C6: `getPermutations` on an input of length `n` (with `size = n`) emits
exactly `n!` orderings; each emitted ordering is a rearrangement of the input
(equal as multisets); every rearrangement of the input is emitted; and for
`n = 0` it yields exactly one permutation, the empty sequence. -/
theorem getPermutations_complete [DecidableEq α] (arr : List α) :
    (getPermutations arr arr.length).length = Nat.factorial arr.length
    ∧ (∀ p ∈ getPermutations arr arr.length, p.Perm arr)
    ∧ (∀ l : List α, l.Perm arr → l ∈ getPermutations arr arr.length)
    ∧ getPermutations ([] : List α) 0 = [[]] :=
  ⟨length_getPermutations arr.length arr rfl,
   fun _ hp => perm_of_mem_getPermutations rfl hp,
   fun _ hl => mem_getPermutations_of_perm rfl hl,
   rfl⟩

theorem getPermutations_complete_witness :
    ([2, 1] : List ℕ).Perm [1, 2] ∧ [2, 1] ∈ getPermutations [1, 2] 2 :=
  ⟨by decide, (getPermutations_complete [1, 2]).2.2.1 [2, 1] (by decide)⟩

/-- C7: the route scorer returns the sum of `distance(route[i], route[i+1])`
for `i` from `0` to `length - 2`; for a route of length `< 2` it returns
zero; and the first implementation's per-route scoring
(`distances.reduce((a, b) => a + b, 0)` over the pushed distances) computes
the same value. -/
theorem total_distance_spec (d : α → α → R) (route : List α) (x : α) :
    total_distance d route
        = ∑ i ∈ Finset.range (route.length - 1),
            d (route.getD i x) (route.getD (i + 1) x)
    ∧ (route.length < 2 → total_distance d route = 0)
    ∧ v1Score d route = total_distance d route :=
  ⟨total_distance_eq_sum d x route, total_distance_short d route,
   v1Score_eq_total_distance d route⟩

theorem total_distance_spec_witness :
    ([(5 : ℤ)] : List ℤ).length < 2 ∧ total_distance absDist [(5 : ℤ)] = 0 :=
  ⟨by decide, (total_distance_spec absDist [(5 : ℤ)] 0).2.1 (by decide)⟩

set_option maxRecDepth 1000000 in
/-- C8: for `distance(a,b) = |a - b|`, inner `[1,2,3,4,5]`, start `0`,
end `6`, both optimizers return exactly `[0,1,2,3,4,5,6]`. -/
theorem sorted_input_gives_sorted_route :
    travelingSalesman [1, 2, 3, 4, 5] (0 : ℤ) 6 (fun a b => |a - b|)
        = [0, 1, 2, 3, 4, 5, 6]
    ∧ handRolledTravelingSalesman [1, 2, 3, 4, 5] (0 : ℤ) 6 (fun a b => |a - b|)
        = [0, 1, 2, 3, 4, 5, 6] := by
  have habs : (fun a b : ℤ => |a - b|) = absDist := by
    funext a b
    rw [absDist_eq_abs]
  rw [habs]
  constructor
  · decide
  · decide

/-- C3: the minimum selection of the first implementation's reduce
(`(min, curr) => curr.distance < min.distance ? curr : min`, modelled by
`minFold`) returns the first-encountered global minimum — `find?` with the
global-minimality predicate finds exactly the reduce's result — and the
fused variant's loop returns the route of the first-encountered global
minimum of its scored candidates, in emission order. -/
theorem min_selection_first_encountered (x : R × List α)
    (xs : List (R × List α)) (d : α → α → R) (start stop : α) (p0 : List α)
    (prest : List (List α)) (hne : ∀ p ∈ p0 :: prest, p ≠ []) :
    (x :: xs).find? (fun y => decide (∀ z ∈ x :: xs, y.1 ≤ z.1))
        = some (minFold x xs)
    ∧ ((p0 :: prest).foldl (hrStep d start stop) (none, [])).2
        = (minFold (hrScore d start stop p0, p0)
            (prest.map (fun p => (hrScore d start stop p, p)))).2
    ∧ ((p0 :: prest).map (fun p => (hrScore d start stop p, p))).find?
        (fun y => decide (∀ z ∈ (p0 :: prest).map
            (fun p => (hrScore d start stop p, p)), y.1 ≤ z.1))
        = some (minFold (hrScore d start stop p0, p0)
            (prest.map (fun p => (hrScore d start stop p, p)))) := by
  obtain ⟨q0, qrest, rfl⟩ :=
    List.exists_cons_of_ne_nil (hne p0 (List.mem_cons_self p0 prest))
  refine ⟨find?_min_eq_minFold x xs, ?_, ?_⟩
  · rw [List.foldl_cons]
    have hstep : hrStep d start stop ((none : Option R), ([] : List α))
        (q0 :: qrest)
        = (some (hrScore d start stop (q0 :: qrest)), q0 :: qrest) := rfl
    rw [hstep, hr_foldl_eq_minFold d start stop prest
      (fun p hp => hne p (List.mem_cons_of_mem _ hp))]
  · rw [List.map_cons]
    exact find?_min_eq_minFold _ _

theorem min_selection_first_encountered_witness :
    (∀ p ∈ [[(1 : ℕ)]], p ≠ []) ∧
      (([((2 : ℤ), [(9 : ℕ)])] : List (ℤ × List ℕ)).find?
          (fun y => decide (∀ z ∈ [((2 : ℤ), [(9 : ℕ)])], y.1 ≤ z.1))
        = some (minFold ((2 : ℤ), [(9 : ℕ)]) [])
      ∧ (([[(1 : ℕ)]] : List (List ℕ)).foldl
          (hrStep (fun _ _ => (0 : ℤ)) 0 0) (none, [])).2
        = (minFold (hrScore (fun _ _ => (0 : ℤ)) 0 0 [1], [1])
            (([] : List (List ℕ)).map
              (fun p => (hrScore (fun _ _ => (0 : ℤ)) 0 0 p, p)))).2
      ∧ (([[(1 : ℕ)]] : List (List ℕ)).map
            (fun p => (hrScore (fun _ _ => (0 : ℤ)) 0 0 p, p))).find?
          (fun y => decide (∀ z ∈ ([[(1 : ℕ)]] : List (List ℕ)).map
              (fun p => (hrScore (fun _ _ => (0 : ℤ)) 0 0 p, p)), y.1 ≤ z.1))
        = some (minFold (hrScore (fun _ _ => (0 : ℤ)) 0 0 [1], [1])
            (([] : List (List ℕ)).map
              (fun p => (hrScore (fun _ _ => (0 : ℤ)) 0 0 p, p))))) :=
  ⟨by decide,
   min_selection_first_encountered ((2 : ℤ), [(9 : ℕ)]) []
     (fun _ _ => (0 : ℤ)) 0 0 [1] [] (by decide)⟩

theorem cacheLookup_correct {ι ω : Type} [DecidableEq ι] (f : ι → ω)
    (cache : List (ι × ω)) (hinv : ∀ pr ∈ cache, pr.2 = f pr.1) (i : ι) (v : ω)
    (h : cacheLookup cache i = some v) : v = f i := by
  unfold cacheLookup at h
  cases hf : cache.find? (fun p => decide (p.1 = i)) with
  | none => rw [hf] at h; simp at h
  | some pr =>
    rw [hf] at h
    simp only [Option.map_some'] at h
    have hmem := List.mem_of_find?_eq_some hf
    have hp := List.find?_some hf
    simp only [decide_eq_true_eq] at hp
    obtain rfl : pr.2 = v := Option.some.inj h
    rw [hinv pr hmem, hp]

theorem cache_invariant_extend {ι ω : Type} (f : ι → ω)
    (cache : List (ι × ω)) (hinv : ∀ pr ∈ cache, pr.2 = f pr.1) (i : ι) :
    ∀ pr ∈ cache ++ [(i, f i)], pr.2 = f pr.1 := by
  intro pr hpr
  rcases List.mem_append.mp hpr with h | h
  · exact hinv pr h
  · simp only [List.mem_singleton] at h
    rw [h]

theorem cachedRun_outputs {ι ω : Type} [DecidableEq ι] (f : ι → ω) :
    ∀ (inputs : List ι) (cache : List (ι × ω)),
      (∀ pr ∈ cache, pr.2 = f pr.1) →
      (cachedRun f cache inputs).1 = inputs.map f := by
  intro inputs
  induction inputs with
  | nil => intro cache _; rfl
  | cons i rest ih =>
    intro cache hinv
    show (cachedCall f cache i).1
        :: (cachedRun f (cachedCall f cache i).2.1 rest).1 = f i :: rest.map f
    cases hl : cacheLookup cache i with
    | some v =>
      have hcall : cachedCall f cache i = (v, cache, 0) := by
        unfold cachedCall
        rw [hl]
      rw [hcall, cacheLookup_correct f cache hinv i v hl]
      show f i :: (cachedRun f cache rest).1 = f i :: rest.map f
      rw [ih cache hinv]
    | none =>
      have hcall : cachedCall f cache i = (f i, cache ++ [(i, f i)], 1) := by
        unfold cachedCall
        rw [hl]
      rw [hcall]
      show f i :: (cachedRun f (cache ++ [(i, f i)]) rest).1 = f i :: rest.map f
      rw [ih (cache ++ [(i, f i)]) (cache_invariant_extend f cache hinv i)]

theorem cacheLookup_append_ne {ι ω : Type} [DecidableEq ι]
    (cache : List (ι × ω)) (i k : ι) (v : ω) (h : k ≠ i) :
    cacheLookup (cache ++ [(i, v)]) k = cacheLookup cache k := by
  unfold cacheLookup
  rw [List.find?_append]
  have : ([(i, v)].find? (fun p => decide (p.1 = k))) = none := by
    simp [Ne.symm h]
  rw [this, Option.or_none]

theorem cacheLookup_append_self {ι ω : Type} [DecidableEq ι]
    (cache : List (ι × ω)) (i : ι) (v : ω) (h : cacheLookup cache i = none) :
    cacheLookup (cache ++ [(i, v)]) i = some v := by
  unfold cacheLookup
  rw [List.find?_append]
  unfold cacheLookup at h
  cases hf : cache.find? (fun p => decide (p.1 = i)) with
  | none => simp
  | some pr => rw [hf] at h; simp at h

theorem filter_length_split {γ : Type} (p q : γ → Bool) (i : γ) :
    ∀ l : List γ, l.Nodup → i ∈ l → p i = true → q i = false →
      (∀ k ∈ l, k ≠ i → p k = q k) →
      (l.filter p).length = (l.filter q).length + 1 := by
  intro l
  induction l with
  | nil => intro _ h; simp at h
  | cons a t ih =>
    intro hnd hmem hp hq hcong
    rcases List.mem_cons.mp hmem with rfl | hmem'
    · have hit : i ∉ t := (List.nodup_cons.mp hnd).1
      rw [List.filter_cons_of_pos hp, List.filter_cons_of_neg (by rw [hq]; simp)]
      have ht : t.filter p = t.filter q :=
        List.filter_congr
          (fun k hk => hcong k (List.mem_cons_of_mem _ hk)
            (fun he => hit (he ▸ hk)))
      rw [ht, List.length_cons]
    · have ha : a ≠ i := fun h => (List.nodup_cons.mp hnd).1 (h ▸ hmem')
      have hpq : p a = q a := hcong a (List.mem_cons_self _ _) ha
      have hrec := ih (List.nodup_cons.mp hnd).2 hmem' hp hq
        (fun k hk hki => hcong k (List.mem_cons_of_mem _ hk) hki)
      by_cases hpa : p a = true
      · rw [List.filter_cons_of_pos hpa, List.filter_cons_of_pos (hpq ▸ hpa),
          List.length_cons, List.length_cons, hrec]
      · rw [List.filter_cons_of_neg hpa, List.filter_cons_of_neg (hpq ▸ hpa),
          hrec]

theorem cachedRun_count {ι ω : Type} [DecidableEq ι] (f : ι → ω) :
    ∀ (inputs : List ι) (cache : List (ι × ω)),
      (cachedRun f cache inputs).2.2
        = ((inputs.dedup).filter
            (fun k => (cacheLookup cache k).isNone)).length := by
  intro inputs
  induction inputs with
  | nil => intro cache; rfl
  | cons i rest ih =>
    intro cache
    show (cachedCall f cache i).2.2
        + (cachedRun f (cachedCall f cache i).2.1 rest).2.2 = _
    cases hl : cacheLookup cache i with
    | some v =>
      have hcall : cachedCall f cache i = (v, cache, 0) := by
        unfold cachedCall
        rw [hl]
      rw [hcall]
      show 0 + (cachedRun f cache rest).2.2 = _
      rw [Nat.zero_add, ih cache]
      by_cases him : i ∈ rest
      · rw [List.dedup_cons_of_mem him]
      · rw [List.dedup_cons_of_not_mem him,
          List.filter_cons_of_neg (by simp [hl])]
    | none =>
      have hcall : cachedCall f cache i = (f i, cache ++ [(i, f i)], 1) := by
        unfold cachedCall
        rw [hl]
      rw [hcall]
      show 1 + (cachedRun f (cache ++ [(i, f i)]) rest).2.2 = _
      rw [ih (cache ++ [(i, f i)])]
      by_cases him : i ∈ rest
      · rw [List.dedup_cons_of_mem him]
        have hsplit := filter_length_split
          (fun k => (cacheLookup cache k).isNone)
          (fun k => (cacheLookup (cache ++ [(i, f i)]) k).isNone) i
          rest.dedup (List.nodup_dedup rest) (List.mem_dedup.mpr him)
          (by simp [hl])
          (by simp [cacheLookup_append_self cache i (f i) hl])
          (fun k _ hk => by simp [cacheLookup_append_ne cache i k (f i) hk])
        omega
      · rw [List.dedup_cons_of_not_mem him,
          List.filter_cons_of_pos (by simp [hl]), List.length_cons]
        have hsame : rest.dedup.filter
            (fun k => (cacheLookup (cache ++ [(i, f i)]) k).isNone)
            = rest.dedup.filter (fun k => (cacheLookup cache k).isNone) :=
          List.filter_congr (fun k hk => by
            simp [cacheLookup_append_ne cache i k (f i)
              (fun he => him (he ▸ List.mem_dedup.mp hk))])
        rw [hsame]
        omega

theorem dedup_replicate {ι : Type} [DecidableEq ι] (key : ι) :
    ∀ k : ℕ, 1 ≤ k → (List.replicate k key).dedup = [key]
  | 1, _ => by simp
  | k + 2, _ => by
    rw [List.replicate_succ,
      List.dedup_cons_of_mem (List.mem_replicate.mpr ⟨by omega, rfl⟩)]
    exact dedup_replicate key (k + 1) (by omega)

/-- C5: the wrapper returned by `cachedFn f` returns, on every call, exactly
what `f` would return; over any call sequence it invokes `f` once per
distinct key (distinctness being the key equality of the backing map): `k`
calls with one key cause one invocation, and `m` pairwise-distinct keys cause
`m` invocations. -/
theorem cachedFn_spec {ι ω : Type} [DecidableEq ι] (f : ι → ω)
    (inputs : List ι) :
    (cachedRun f [] inputs).1 = inputs.map f
    ∧ (cachedRun f [] inputs).2.2 = inputs.dedup.length
    ∧ (∀ (k : ℕ) (key : ι), 1 ≤ k →
        (cachedRun f [] (List.replicate k key)).2.2 = 1)
    ∧ (inputs.Nodup → (cachedRun f [] inputs).2.2 = inputs.length) := by
  have hfilter : ∀ l : List ι,
      l.filter (fun k => (cacheLookup ([] : List (ι × ω)) k).isNone) = l :=
    fun l => List.filter_eq_self.mpr (fun a _ => rfl)
  refine ⟨cachedRun_outputs f inputs [] (by simp), ?_, ?_, ?_⟩
  · rw [cachedRun_count f inputs [], hfilter]
  · intro k key hk
    rw [cachedRun_count f _ [], dedup_replicate key k hk, hfilter]
    rfl
  · intro hnd
    rw [cachedRun_count f inputs [], hfilter, List.dedup_eq_self.mpr hnd]

theorem cachedFn_spec_witness :
    ((1 : ℕ) ≤ 3)
    ∧ (cachedRun (fun n : ℕ => 2 * n) [] (List.replicate 3 7)).2.2 = 1 :=
  ⟨by decide, (cachedFn_spec (fun n : ℕ => 2 * n) []).2.2.1 3 7 (by decide)⟩

section FallibleProofs

variable {ε : Type}

theorem sumE_error (d : α → α → Except ε R) :
    ∀ (prs : List (α × α)) (acc : R) (e : ε),
      sumE d prs acc = .error e → ∃ pr ∈ prs, d pr.1 pr.2 = .error e := by
  intro prs
  induction prs with
  | nil =>
    intro acc e h
    exact absurd h (by simp [sumE])
  | cons pr rest ih =>
    intro acc e h
    have hstep : sumE d (pr :: rest) acc
        = match d pr.1 pr.2 with
          | .error e => .error e
          | .ok v => sumE d rest (acc + v) := rfl
    rw [hstep] at h
    cases hd : d pr.1 pr.2 with
    | error e' =>
      rw [hd] at h
      simp only [Except.error.injEq] at h
      exact ⟨pr, List.mem_cons_self pr rest, by rw [hd, h]⟩
    | ok v =>
      rw [hd] at h
      obtain ⟨pr', hmem, hfail⟩ := ih (acc + v) e h
      exact ⟨pr', List.mem_cons_of_mem pr hmem, hfail⟩

theorem sumE_ok_all (d : α → α → Except ε R) :
    ∀ (prs : List (α × α)) (acc : R) (v : R),
      sumE d prs acc = .ok v → ∀ pr ∈ prs, ∃ q, d pr.1 pr.2 = .ok q := by
  intro prs
  induction prs with
  | nil => intro acc v _ pr hpr; simp at hpr
  | cons pr0 rest ih =>
    intro acc v h pr hpr
    have hstep : sumE d (pr0 :: rest) acc
        = match d pr0.1 pr0.2 with
          | .error e => .error e
          | .ok w => sumE d rest (acc + w) := rfl
    rw [hstep] at h
    cases hd : d pr0.1 pr0.2 with
    | error e' =>
      rw [hd] at h
      simp at h
    | ok w =>
      rw [hd] at h
      rcases List.mem_cons.mp hpr with rfl | hmem
      · exact ⟨w, hd⟩
      · exact ih (acc + w) v h pr hmem

theorem scoreRoutesE_error (d : α → α → Except ε R) :
    ∀ (routes : List (List α)) (e : ε),
      scoreRoutesE d routes = .error e →
      ∃ r ∈ routes, ∃ pr ∈ pairwise r, d pr.1 pr.2 = .error e := by
  intro routes
  induction routes with
  | nil =>
    intro e h
    exact absurd h (by simp [scoreRoutesE])
  | cons r rest ih =>
    intro e h
    have hstep : scoreRoutesE d (r :: rest)
        = match sumE d (pairwise r) 0 with
          | .error e => .error e
          | .ok q =>
            match scoreRoutesE d rest with
            | .error e => .error e
            | .ok l => .ok ((q, r) :: l) := rfl
    rw [hstep] at h
    cases hs : sumE d (pairwise r) 0 with
    | error e' =>
      rw [hs] at h
      simp only [Except.error.injEq] at h
      subst h
      obtain ⟨pr, hpr, hfail⟩ := sumE_error d (pairwise r) 0 e' hs
      exact ⟨r, List.mem_cons_self r rest, pr, hpr, hfail⟩
    | ok q =>
      rw [hs] at h
      cases hrest : scoreRoutesE d rest with
      | error e' =>
        rw [hrest] at h
        simp only [Except.error.injEq] at h
        subst h
        obtain ⟨r', hr', pr, hpr, hfail⟩ := ih e' hrest
        exact ⟨r', List.mem_cons_of_mem r hr', pr, hpr, hfail⟩
      | ok l =>
        rw [hrest] at h
        simp at h

theorem scoreRoutesE_ok_all (d : α → α → Except ε R) :
    ∀ (routes : List (List α)) (l : List (R × List α)),
      scoreRoutesE d routes = .ok l →
      ∀ r ∈ routes, ∀ pr ∈ pairwise r, ∃ q, d pr.1 pr.2 = .ok q := by
  intro routes
  induction routes with
  | nil => intro l _ r hr; simp at hr
  | cons r0 rest ih =>
    intro l h r hr pr hpr
    have hstep : scoreRoutesE d (r0 :: rest)
        = match sumE d (pairwise r0) 0 with
          | .error e => .error e
          | .ok q =>
            match scoreRoutesE d rest with
            | .error e => .error e
            | .ok l => .ok ((q, r0) :: l) := rfl
    rw [hstep] at h
    cases hs : sumE d (pairwise r0) 0 with
    | error e' => rw [hs] at h; simp at h
    | ok q =>
      rw [hs] at h
      cases hrest : scoreRoutesE d rest with
      | error e' => rw [hrest] at h; simp at h
      | ok l' =>
        rcases List.mem_cons.mp hr with rfl | hmem
        · exact sumE_ok_all d (pairwise r) 0 q hs pr hpr
        · exact ih l' hrest r hmem pr hpr

theorem hrRunE_error (d : α → α → Except ε R) (start stop : α) :
    ∀ (ps : List (List α)) (st : Option R × List α) (e : ε),
      hrRunE d start stop st ps = .error e →
      ∃ p ∈ ps, ∃ pr ∈ hrScoreTrace start stop p, d pr.1 pr.2 = .error e := by
  intro ps
  induction ps with
  | nil =>
    intro st e h
    exact absurd h (by simp [hrRunE])
  | cons route rest ih =>
    intro st e h
    cases route with
    | nil =>
      have hstep : hrRunE d start stop st ([] :: rest)
          = hrRunE d start stop st rest := rfl
      rw [hstep] at h
      obtain ⟨p, hp, pr, hpr, hfail⟩ := ih st e h
      exact ⟨p, List.mem_cons_of_mem _ hp, pr, hpr, hfail⟩
    | cons p0 t =>
      have hstep : hrRunE d start stop st ((p0 :: t) :: rest)
          = match sumE d (hrScoreTrace start stop (p0 :: t)) 0 with
            | .error e => .error e
            | .ok s =>
              hrRunE d start stop
                (match st.1 with
                  | none => (some s, p0 :: t)
                  | some m => if s < m then (some s, p0 :: t) else st) rest := rfl
      rw [hstep] at h
      cases hs : sumE d (hrScoreTrace start stop (p0 :: t)) 0 with
      | error e' =>
        rw [hs] at h
        simp only [Except.error.injEq] at h
        subst h
        obtain ⟨pr, hpr, hfail⟩ := sumE_error d _ 0 e' hs
        exact ⟨p0 :: t, List.mem_cons_self _ _, pr, hpr, hfail⟩
      | ok s =>
        rw [hs] at h
        obtain ⟨p, hp, pr, hpr, hfail⟩ := ih _ e h
        exact ⟨p, List.mem_cons_of_mem _ hp, pr, hpr, hfail⟩

theorem hrRunE_ok_all (d : α → α → Except ε R) (start stop : α) :
    ∀ (ps : List (List α)) (st : Option R × List α) (fin : Option R × List α),
      hrRunE d start stop st ps = .ok fin →
      ∀ p ∈ ps, ∀ pr ∈ hrScoreTrace start stop p, ∃ q, d pr.1 pr.2 = .ok q := by
  intro ps
  induction ps with
  | nil => intro st fin _ p hp; simp at hp
  | cons route rest ih =>
    intro st fin h p hp pr hpr
    cases route with
    | nil =>
      have hstep : hrRunE d start stop st ([] :: rest)
          = hrRunE d start stop st rest := rfl
      rw [hstep] at h
      rcases List.mem_cons.mp hp with rfl | hmem
      · simp [hrScoreTrace] at hpr
      · exact ih st fin h p hmem pr hpr
    | cons p0 t =>
      have hstep : hrRunE d start stop st ((p0 :: t) :: rest)
          = match sumE d (hrScoreTrace start stop (p0 :: t)) 0 with
            | .error e => .error e
            | .ok s =>
              hrRunE d start stop
                (match st.1 with
                  | none => (some s, p0 :: t)
                  | some m => if s < m then (some s, p0 :: t) else st) rest := rfl
      rw [hstep] at h
      cases hs : sumE d (hrScoreTrace start stop (p0 :: t)) 0 with
      | error e' => rw [hs] at h; simp at h
      | ok s =>
        rw [hs] at h
        rcases List.mem_cons.mp hp with rfl | hmem
        · exact sumE_ok_all d _ 0 s hs pr hpr
        · exact ih _ fin h p hmem pr hpr

end FallibleProofs

/-- C9: with an `Except`-valued distance function, each optimizer returns an
error if and only if some pair queried during its search fails, and the error
it returns is exactly the error raised by a queried pair (propagated
unmodified); in the error case no route is produced, by the `Except` type. -/
theorem error_propagation {ε : Type} (inner : List α) (start stop : α)
    (d : α → α → Except ε R) :
    ((∃ e, travelingSalesmanE inner start stop d = .error e)
      ↔ ∃ pr ∈ tspQueries inner start stop, ∃ e, d pr.1 pr.2 = .error e)
    ∧ (∀ e, travelingSalesmanE inner start stop d = .error e →
        ∃ pr ∈ tspQueries inner start stop, d pr.1 pr.2 = .error e)
    ∧ ((∃ e, handRolledTravelingSalesmanE inner start stop d = .error e)
      ↔ ∃ pr ∈ hrQueries inner start stop, ∃ e, d pr.1 pr.2 = .error e)
    ∧ (∀ e, handRolledTravelingSalesmanE inner start stop d = .error e →
        ∃ pr ∈ hrQueries inner start stop, d pr.1 pr.2 = .error e) := by
  have htspUn : ∀ e, travelingSalesmanE inner start stop d = .error e →
      ∃ pr ∈ tspQueries inner start stop, d pr.1 pr.2 = .error e := by
    intro e h
    cases hs : scoreRoutesE d
        (generateRoutes start stop (permutations inner inner.length)) with
    | error e' =>
      have he : e' = e := by
        unfold travelingSalesmanE at h
        rw [hs] at h
        simpa using h
      subst he
      obtain ⟨r, hr, pr, hpr, hfail⟩ := scoreRoutesE_error d _ e' hs
      exact ⟨pr, List.mem_flatMap.mpr ⟨r, hr, hpr⟩, hfail⟩
    | ok l =>
      exfalso
      unfold travelingSalesmanE at h
      rw [hs] at h
      have h' : (match toMin l with
          | none => (Except.ok [start, stop] : Except ε (List α))
          | some m => Except.ok m.2) = Except.error e := h
      cases htm : toMin l with
      | none => rw [htm] at h'; simp at h'
      | some m => rw [htm] at h'; simp at h'
  have hhrUn : ∀ e, handRolledTravelingSalesmanE inner start stop d = .error e →
      ∃ pr ∈ hrQueries inner start stop, d pr.1 pr.2 = .error e := by
    intro e h
    cases hs : hrRunE d start stop (none, [])
        (permutations inner inner.length) with
    | error e' =>
      have he : e' = e := by
        unfold handRolledTravelingSalesmanE at h
        rw [hs] at h
        simpa using h
      subst he
      obtain ⟨p, hp, pr, hpr, hfail⟩ := hrRunE_error d start stop _ _ e' hs
      exact ⟨pr, List.mem_flatMap.mpr ⟨p, hp, hpr⟩, hfail⟩
    | ok fin =>
      exfalso
      unfold handRolledTravelingSalesmanE at h
      rw [hs] at h
      simp at h
  refine ⟨⟨?_, ?_⟩, htspUn, ⟨?_, ?_⟩, hhrUn⟩
  · rintro ⟨e, h⟩
    obtain ⟨pr, hm, hfail⟩ := htspUn e h
    exact ⟨pr, hm, e, hfail⟩
  · rintro ⟨pr, hm, e, hfail⟩
    cases hs : scoreRoutesE d
        (generateRoutes start stop (permutations inner inner.length)) with
    | error e' =>
      refine ⟨e', ?_⟩
      unfold travelingSalesmanE
      rw [hs]
    | ok l =>
      exfalso
      obtain ⟨r, hr, hpr⟩ := List.mem_flatMap.mp hm
      obtain ⟨q, hq⟩ := scoreRoutesE_ok_all d _ l hs r hr pr hpr
      rw [hq] at hfail
      simp at hfail
  · rintro ⟨e, h⟩
    obtain ⟨pr, hm, hfail⟩ := hhrUn e h
    exact ⟨pr, hm, e, hfail⟩
  · rintro ⟨pr, hm, e, hfail⟩
    cases hs : hrRunE d start stop (none, [])
        (permutations inner inner.length) with
    | error e' =>
      refine ⟨e', ?_⟩
      unfold handRolledTravelingSalesmanE
      rw [hs]
    | ok fin =>
      exfalso
      obtain ⟨p, hp, hpr⟩ := List.mem_flatMap.mp hm
      obtain ⟨q, hq⟩ := hrRunE_ok_all d start stop _ _ fin hs p hp pr hpr
      rw [hq] at hfail
      simp at hfail

theorem error_propagation_witness :
    travelingSalesmanE [(1 : ℕ)] 0 2
        (fun _ _ => (Except.error 7 : Except ℕ ℤ)) = .error 7
    ∧ (∃ pr ∈ tspQueries [(1 : ℕ)] 0 2,
        (fun _ _ => (Except.error 7 : Except ℕ ℤ)) pr.1 pr.2 = .error 7)
    ∧ handRolledTravelingSalesmanE [(1 : ℕ)] 0 2
        (fun _ _ => (Except.error 7 : Except ℕ ℤ)) = .error 7
    ∧ (∃ pr ∈ hrQueries [(1 : ℕ)] 0 2,
        (fun _ _ => (Except.error 7 : Except ℕ ℤ)) pr.1 pr.2 = .error 7) :=
  ⟨rfl,
   (error_propagation [(1 : ℕ)] 0 2
     (fun _ _ => (Except.error 7 : Except ℕ ℤ))).2.1 7 rfl,
   rfl,
   (error_propagation [(1 : ℕ)] 0 2
     (fun _ _ => (Except.error 7 : Except ℕ ℤ))).2.2.2 7 rfl⟩

end TSP
